import Mathlib

/-!
Shallow embedding of `rdp-bruteforcer` (`src/main.rs`).

Rust strings (`&str` / `String`) are modelled two ways, matching how the
source manipulates them:

* as lists of unicode scalar values (`List Char`) for the line-oriented
  wordlist loading (`split("\n")`, `trim`, `to_lowercase`);
* as their UTF-8 byte sequences (`List Nat`, each element < 256) for
  `hex_to_bytes`, whose operations (`len`, `get(i..i+2)`,
  `u8::from_str_radix`) are all byte-indexed in Rust.

File I/O is modelled by passing file *contents* directly; the network is
modelled by per-credential transport/authentication oracles.  Machine
integers are `Nat` with the overflow checks of the Rust checked arithmetic
made explicit.
-/

namespace RdpBrute

/-- `char::to_digit(16)` applied to a byte cast to a char (this is how
`u8::from_str_radix` consumes its input: byte by byte).  Digits `0`-`9`,
`a`-`f` and `A`-`F` yield their value; everything else is `none`. -/
def hexDigitVal (b : Nat) : Option Nat :=
  if 48 ≤ b ∧ b ≤ 57 then some (b - 48)
  else if 97 ≤ b ∧ b ≤ 102 then some (b - 97 + 10)
  else if 65 ≤ b ∧ b ≤ 70 then some (b - 65 + 10)
  else none

/-- The digit-accumulation loop of `u8::from_str_radix(_, 16)`:
`result = result.checked_mul(16)?.checked_add(digit)?`, failing on any
non-digit byte and on overflow past `u8::MAX = 255`. -/
def accumPosU8 : Nat → List Nat → Option Nat
  | acc, [] => some acc
  | acc, c :: cs =>
    match hexDigitVal c with
    | none => none
    | some d => if acc * 16 + d ≤ 255 then accumPosU8 (acc * 16 + d) cs else none

/-- `u8::from_str_radix(s, 16).ok()` over the UTF-8 bytes of `s`.
Rust accepts an optional leading `+` sign (`b'+'` arm of the sign match);
a lone `"+"` is an error, and since `u8` is unsigned a leading `-` is not
consumed as a sign, so it fails as an invalid digit.  The empty string is
an error. -/
def u8FromStrRadix16 : List Nat → Option Nat
  | [] => none
  | c :: rest =>
    if c = 43 ∧ rest ≠ [] then accumPosU8 0 rest else accumPosU8 0 (c :: rest)

/-- Rust `str::is_char_boundary(i)` on the UTF-8 bytes: true at 0 and at
the total length, and otherwise exactly when the byte at `i` is not a
continuation byte (`0x80..0xBF`). -/
def isCharBoundary (s : List Nat) (i : Nat) : Bool :=
  if i = 0 then true
  else
    match s.drop i with
    | [] => decide (i = s.length)
    | b :: _ => decide (b < 128 ∨ 192 ≤ b)

/-- Rust checked slicing `s.get(i..j)` on a `&str`: `Some` of the byte
sub-slice exactly when `i ≤ j` and both ends are char boundaries (which
includes `j ≤ len`). -/
def strGetBytes (s : List Nat) (i j : Nat) : Option (List Nat) :=
  if i ≤ j ∧ isCharBoundary s i ∧ isCharBoundary s j then
    some ((s.drop i).take (j - i))
  else none

/-- `collect::<Option<Vec<_>>>()`: all-or-nothing aggregation of an
iterator of `Option`s. -/
def collectOpt {α : Type} : List (Option α) → Option (List α)
  | [] => some []
  | none :: _ => none
  | some a :: rest => (collectOpt rest).map (fun l => a :: l)

/-- The index sequence of `(0..len).step_by(2)`: `0, 2, 4, …`, with
`⌈len/2⌉` elements. -/
def hexIndices (len : Nat) : List Nat :=
  (List.range ((len + 1) / 2)).map (fun k => 2 * k)

/-- `hex_to_bytes` from `src/main.rs`: if the byte length is even, map
each index `i` of `(0..len).step_by(2)` to
`s.get(i..i+2).and_then(|sub| u8::from_str_radix(sub, 16).ok())` and
collect; otherwise `None`. -/
def hex_to_bytes (s : List Nat) : Option (List Nat) :=
  if s.length % 2 = 0 then
    collectOpt ((hexIndices s.length).map
      (fun i => (strGetBytes s i (i + 2)).bind u8FromStrRadix16))
  else none

/-- The secret type `Credential` of `src/main.rs`: an NTLM hash (raw
bytes) or a plaintext password. -/
inductive Credential : Type
  | Hash : List Nat → Credential
  | Password : List Char → Credential
deriving DecidableEq

/-- `CredentialSet` of `src/main.rs`: one username/secret pair. -/
structure CredentialSet : Type where
  username : List Char
  secret : Credential
deriving DecidableEq

/-- The two-lowercase-hex-digit rendering `format!("{:02x}", x)` of a
byte (`x ≤ 255`, so always exactly two digits). -/
def byteToHexBytes (b : Nat) : List Nat :=
  [(if b / 16 < 10 then 48 + b / 16 else 97 + (b / 16 - 10)),
   (if b % 16 < 10 then 48 + b % 16 else 97 + (b % 16 - 10))]

/-- The hex string built by the `Display` impl for `Credential::Hash`:
`hash.iter().map(|x| format!("{:02x}", x)).collect::<String>()`
(as UTF-8 bytes; all output is ASCII). -/
def hashHexRender (h : List Nat) : List Nat :=
  (h.map byteToHexBytes).flatten

/-- ASCII lowercasing of a byte (`A`-`Z` ↦ `a`-`z`); on hex-digit bytes
this agrees with Rust's unicode lowercasing. -/
def lowerByte (b : Nat) : Nat :=
  if 65 ≤ b ∧ b ≤ 90 then b + 32 else b

/-- A byte that is an ASCII hex digit (`0`-`9`, `a`-`f`, `A`-`F`). -/
def isHexDigitByte (b : Nat) : Bool :=
  decide ((48 ≤ b ∧ b ≤ 57) ∨ (97 ≤ b ∧ b ≤ 102) ∨ (65 ≤ b ∧ b ≤ 70))

/-- Rust `char::is_whitespace`: the unicode `White_Space` code points. -/
def isRustWhitespace (c : Char) : Bool :=
  c.toNat ∈ [9, 10, 11, 12, 13, 32, 133, 160, 5760,
    8192, 8193, 8194, 8195, 8196, 8197, 8198, 8199, 8200, 8201, 8202,
    8232, 8233, 8239, 8287, 12288]

/-- Rust `str::trim`: drop leading and trailing whitespace. -/
def trimList (s : List Char) : List Char :=
  ((s.dropWhile isRustWhitespace).reverse.dropWhile isRustWhitespace).reverse

/-- Rust `str::split("\n")`: split on every newline, keeping empty
segments; the empty string yields one empty segment. -/
def splitNewline : List Char → List (List Char)
  | [] => [[]]
  | c :: cs =>
    if c = '\n' then [] :: splitNewline cs
    else
      match splitNewline cs with
      | [] => [[c]]
      | t :: ts => (c :: t) :: ts

/-- ASCII lowercasing of a char.  Rust's `String::to_lowercase` performs
full unicode lowercasing, but on every string whose hex decoding can
succeed the two agree (the only non-ASCII chars whose unicode lowercase
is ASCII map to `k` and `i·combining-dot`, neither of which hex-decodes),
so this is extensionally faithful for the hash-list pipeline. -/
def asciiLowerChar (c : Char) : Char :=
  if 65 ≤ c.toNat ∧ c.toNat ≤ 90 then Char.ofNat (c.toNat + 32) else c

def rustToLower (s : List Char) : List Char := s.map asciiLowerChar

/-- UTF-8 encoding of one unicode scalar value. -/
def utf8Bytes (c : Char) : List Nat :=
  let n := c.toNat
  if n < 128 then [n]
  else if n < 2048 then [192 + n / 64, 128 + n % 64]
  else if n < 65536 then [224 + n / 4096, 128 + (n / 64) % 64, 128 + n % 64]
  else [240 + n / 262144, 128 + (n / 4096) % 64, 128 + (n / 64) % 64, 128 + n % 64]

/-- UTF-8 encoding of a string. -/
def utf8Encode (s : List Char) : List Nat := (s.map utf8Bytes).flatten

/-- The password-list loading of `combos_with_username_and_wordlists`
(lines 91-96): split the file content on newlines and wrap each trimmed
line as a `Password` secret. -/
def loadPasswordCreds (content : List Char) : List Credential :=
  (splitNewline content).map (fun v => Credential.Password (trimList v))

/-- The hash-list loading of `combos_with_username_and_wordlists`
(lines 98-103): split on newlines; each line is trimmed, lowercased and
hex-decoded into a `Hash` secret.  The `.expect(…)` panic on a decode
failure is modelled as `none`. -/
def loadHashCreds (content : List Char) : Option (List Credential) :=
  collectOpt ((splitNewline content).map
    (fun v => (hex_to_bytes (utf8Encode (rustToLower (trimList v)))).map Credential.Hash))

/-- `CredentialSet::combos_with_username_and_wordlists`, with file paths
replaced by the (optional) file contents.  `credentials` is passwords
then hashes; the single-username block is pushed first, then the
username-list cross product (outer loop usernames, inner loop secrets).
`none` models the hash-decode panic. -/
def combos_with_username_and_wordlists (username : Option (List Char))
    (username_list : Option (List Char)) (wordlist : Option (List Char))
    (hashlist : Option (List Char)) : Option (List CredentialSet) :=
  let pw := match wordlist with
    | some c => loadPasswordCreds c
    | none => []
  match (match hashlist with
         | some c => loadHashCreds c
         | none => some []) with
  | none => none
  | some hs =>
    let credentials := pw ++ hs
    let outSingle := match username with
      | some u => credentials.map (fun cr => CredentialSet.mk u cr)
      | none => []
    let outList := match username_list with
      | some c => (((splitNewline c).map trimList).map
          (fun u => credentials.map (fun cr => CredentialSet.mk u cr))).flatten
      | none => []
    some (outSingle ++ outList)

/-- Outcome of the transport establishment inside `try_combo`: a direct
`TcpStream::connect(..).expect(..)` or the SOCKS4 `connect(..).unwrap()`;
`refused` means the unwrap/expect panics (fatal). -/
inductive TransportResult : Type
  | ok : TransportResult
  | refused : TransportResult
deriving DecidableEq

/-- `try_combo`, abstracted over the two external effects: the transport
establishment and the authentication handshake.  `none` models the
transport panic aborting the process; `some b` is `Ok`/`Err` of the
authentication attempt. -/
def try_combo (transport : TransportResult) (authOk : Bool) : Option Bool :=
  match transport with
  | TransportResult.refused => none
  | TransportResult.ok => some authOk

/-- How a run of the attempt loop ended. -/
inductive RunResult : Type
  | success : RunResult
  | exhausted : RunResult
  | fatalTransport : RunResult
deriving DecidableEq

/-- The attempt loop of `main` (lines 215-226): iterate the credential
set in order; each iteration issues one attempt (recorded in the first
component, in order).  A transport panic aborts the run; an `Ok` prints
success and breaks; an `Err` continues with the next pair. -/
def runEngine (transport : CredentialSet → TransportResult)
    (auth : CredentialSet → Bool) : List CredentialSet → List CredentialSet × RunResult
  | [] => ([], RunResult.exhausted)
  | c :: rest =>
    match try_combo (transport c) (auth c) with
    | none => ([c], RunResult.fatalTransport)
    | some true => ([c], RunResult.success)
    | some false =>
      let r := runEngine transport auth rest
      (c :: r.1, r.2)

/-- How `main` ends, for the stages the claims are about. -/
inductive MainOutcome : Type
  | noUsernameFatal : MainOutcome
  | loadFatal : MainOutcome
  | emptySetFatal : MainOutcome
  | ran : List CredentialSet → RunResult → MainOutcome
deriving DecidableEq

/-- The attempts issued by a run: none for the fatal pre-attempt
outcomes (the loop is never entered), the engine trace otherwise. -/
def attemptsOf : MainOutcome → List CredentialSet
  | MainOutcome.ran att _ => att
  | _ => []

/-- `main` (lines 188-227): the username-source check, credential-set
construction, the empty-set check, then the attempt loop. -/
def mainRun (username : Option (List Char)) (username_list : Option (List Char))
    (wordlist : Option (List Char)) (hashlist : Option (List Char))
    (transport : CredentialSet → TransportResult)
    (auth : CredentialSet → Bool) : MainOutcome :=
  if username.isNone ∧ username_list.isNone then MainOutcome.noUsernameFatal
  else
    match combos_with_username_and_wordlists username username_list wordlist hashlist with
    | none => MainOutcome.loadFatal
    | some toTry =>
      if toTry.length = 0 then MainOutcome.emptySetFatal
      else
        let r := runEngine transport auth toTry
        MainOutcome.ran r.1 r.2

/-! ### Helper lemmas -/

theorem flatten_map_nil {α β : Type} (l : List α) :
    ((l.map (fun _ => ([] : List β))).flatten) = [] := by
  induction l with
  | nil => rfl
  | cons x xs ih => simp [ih]

theorem length_cross (us : List (List Char)) (secrets : List Credential) :
    (((us.map (fun u => secrets.map (fun cr => CredentialSet.mk u cr))).flatten)).length
      = us.length * secrets.length := by
  induction us with
  | nil => simp
  | cons u us ih =>
    simp only [List.map_cons, List.flatten_cons, List.length_append, List.length_cons,
      List.length_map, ih]
    ring

theorem splitNewline_ne_nil (l : List Char) : splitNewline l ≠ [] := by
  cases l with
  | nil => simp [splitNewline]
  | cons c cs =>
    by_cases h : c = '\n'
    · simp [splitNewline, h]
    · simp only [splitNewline, if_neg h]
      cases splitNewline cs <;> simp

theorem splitNewline_append_newline (content : List Char) :
    splitNewline (content ++ ['\n']) = splitNewline content ++ [[]] := by
  induction content with
  | nil => rfl
  | cons c cs ih =>
    by_cases h : c = '\n'
    · simp [splitNewline, h, ih]
    · simp only [List.cons_append, splitNewline, if_neg h, List.append_eq]
      rw [ih]
      cases hs : splitNewline cs with
      | nil => exact absurd hs (splitNewline_ne_nil cs)
      | cons t ts => simp

theorem splitNewline_length (content : List Char) :
    (splitNewline content).length = content.count '\n' + 1 := by
  induction content with
  | nil => rfl
  | cons c cs ih =>
    by_cases h : c = '\n'
    · simp [splitNewline, h, ih, List.count_cons]
    · simp only [splitNewline, if_neg h]
      cases hs : splitNewline cs with
      | nil => exact absurd hs (splitNewline_ne_nil cs)
      | cons t ts =>
        have := ih
        rw [hs] at this
        simp only [List.length_cons] at this ⊢
        simp [List.count_cons, h, this]

theorem runEngine_trace_elem (t : CredentialSet → TransportResult)
    (a : CredentialSet → Bool) (l : List CredentialSet) :
    ∃ r, (runEngine t a l).1 ++ r = l := by
  induction l with
  | nil => exact ⟨[], rfl⟩
  | cons c cs ih =>
    cases ht : t c with
    | refused => exact ⟨cs, by simp [runEngine, try_combo, ht]⟩
    | ok =>
      cases ha : a c with
      | true => exact ⟨cs, by simp [runEngine, try_combo, ht, ha]⟩
      | false =>
        obtain ⟨r, hr⟩ := ih
        exact ⟨r, by simp [runEngine, try_combo, ht, ha, hr]⟩

theorem collectOpt_cons_some {α : Type} (a : α) (rest : List (Option α)) (bs : List α)
    (h : collectOpt (some a :: rest) = some bs) :
    ∃ cs, collectOpt rest = some cs ∧ bs = a :: cs := by
  simp only [collectOpt, Option.map_eq_some'] at h
  obtain ⟨cs, h1, h2⟩ := h
  exact ⟨cs, h1, h2.symm⟩

theorem collectOpt_length {α : Type} (l : List (Option α)) (bs : List α)
    (h : collectOpt l = some bs) : bs.length = l.length := by
  induction l generalizing bs with
  | nil =>
    simp only [collectOpt, Option.some_inj] at h
    simp [← h]
  | cons o rest ih =>
    cases o with
    | none => simp [collectOpt] at h
    | some a =>
      obtain ⟨cs, h1, rfl⟩ := collectOpt_cons_some a rest bs h
      simp [ih cs h1]

theorem collectOpt_mem_ne_none {α : Type} (l : List (Option α)) (bs : List α)
    (h : collectOpt l = some bs) : ∀ o ∈ l, o ≠ none := by
  induction l generalizing bs with
  | nil => simp
  | cons o rest ih =>
    cases o with
    | none => simp [collectOpt] at h
    | some a =>
      obtain ⟨cs, h1, rfl⟩ := collectOpt_cons_some a rest bs h
      intro x hx
      rcases List.mem_cons.mp hx with rfl | hx'
      · simp
      · exact ih cs h1 x hx'

theorem collectOpt_append_one {α : Type} (l : List (Option α)) (xs : List α) (x : α)
    (h : collectOpt l = some xs) :
    collectOpt (l ++ [some x]) = some (xs ++ [x]) := by
  induction l generalizing xs with
  | nil =>
    simp only [collectOpt, Option.some_inj] at h
    simp [← h, collectOpt]
  | cons o rest ih =>
    cases o with
    | none => simp [collectOpt] at h
    | some a =>
      obtain ⟨cs, h1, rfl⟩ := collectOpt_cons_some a rest xs h
      rw [List.cons_append]
      simp only [collectOpt]
      rw [ih cs h1]
      rfl

theorem isCharBoundary_le (s : List Nat) (j : Nat) (h : isCharBoundary s j = true) :
    j ≤ s.length := by
  by_cases hle : j ≤ s.length
  · exact hle
  · exfalso
    unfold isCharBoundary at h
    rw [if_neg (by omega)] at h
    rw [List.drop_eq_nil_iff.mpr (by omega)] at h
    simp at h
    omega

theorem hexDigitVal_spec (b d : Nat) (h : hexDigitVal b = some d) :
    isHexDigitByte b = true ∧ d < 16 ∧
    (if d < 10 then 48 + d else 97 + (d - 10)) = lowerByte b := by
  unfold hexDigitVal at h
  by_cases h1 : 48 ≤ b ∧ b ≤ 57
  · rw [if_pos h1] at h
    have hd : b - 48 = d := by injection h
    have hb : isHexDigitByte b = true := by
      simp only [isHexDigitByte, decide_eq_true_eq]
      omega
    refine ⟨hb, by omega, ?_⟩
    rw [if_pos (by omega)]
    unfold lowerByte
    rw [if_neg (by omega)]
    omega
  · rw [if_neg h1] at h
    by_cases h2 : 97 ≤ b ∧ b ≤ 102
    · rw [if_pos h2] at h
      have hd : b - 97 + 10 = d := by injection h
      have hb : isHexDigitByte b = true := by
        simp only [isHexDigitByte, decide_eq_true_eq]
        omega
      refine ⟨hb, by omega, ?_⟩
      rw [if_neg (by omega)]
      unfold lowerByte
      rw [if_neg (by omega)]
      omega
    · rw [if_neg h2] at h
      by_cases h3 : 65 ≤ b ∧ b ≤ 70
      · rw [if_pos h3] at h
        have hd : b - 65 + 10 = d := by injection h
        have hb : isHexDigitByte b = true := by
          simp only [isHexDigitByte, decide_eq_true_eq]
          omega
        refine ⟨hb, by omega, ?_⟩
        rw [if_neg (by omega)]
        unfold lowerByte
        rw [if_pos (by omega)]
        omega
      · rw [if_neg h3] at h
        cases h

theorem hexDigitVal_of_hex (b : Nat) (h : isHexDigitByte b = true) :
    ∃ d, hexDigitVal b = some d := by
  simp only [isHexDigitByte, decide_eq_true_eq] at h
  unfold hexDigitVal
  rcases h with h | h | h
  · exact ⟨b - 48, by rw [if_pos h]⟩
  · exact ⟨b - 97 + 10, by rw [if_neg (by omega), if_pos h]⟩
  · exact ⟨b - 65 + 10, by rw [if_neg (by omega), if_neg (by omega), if_pos h]⟩

theorem u8_pair_some_shape (c1 c2 v : Nat)
    (h : u8FromStrRadix16 [c1, c2] = some v) :
    (c1 = 43 ∨ isHexDigitByte c1 = true) ∧ isHexDigitByte c2 = true := by
  simp only [u8FromStrRadix16] at h
  by_cases h1 : c1 = 43 ∧ ([c2] : List Nat) ≠ []
  · rw [if_pos h1] at h
    cases hd : hexDigitVal c2 with
    | none =>
      simp only [accumPosU8, hd] at h
      exact Option.noConfusion h
    | some d => exact ⟨Or.inl h1.1, (hexDigitVal_spec c2 d hd).1⟩
  · rw [if_neg h1] at h
    cases hd1 : hexDigitVal c1 with
    | none =>
      simp only [accumPosU8, hd1] at h
      exact Option.noConfusion h
    | some d1 =>
      simp only [accumPosU8, hd1] at h
      by_cases hle : 0 * 16 + d1 ≤ 255
      · rw [if_pos hle] at h
        cases hd2 : hexDigitVal c2 with
        | none =>
          simp only [accumPosU8, hd2] at h
          exact Option.noConfusion h
        | some d2 =>
          exact ⟨Or.inr (hexDigitVal_spec c1 d1 hd1).1, (hexDigitVal_spec c2 d2 hd2).1⟩
      · rw [if_neg hle] at h
        cases h

theorem u8_pair_hex_val (c1 c2 d1 d2 : Nat)
    (h1 : hexDigitVal c1 = some d1) (h2 : hexDigitVal c2 = some d2)
    (hc1 : c1 ≠ 43) (hd1 : d1 < 16) (hd2 : d2 < 16) :
    u8FromStrRadix16 [c1, c2] = some (d1 * 16 + d2) := by
  simp only [u8FromStrRadix16]
  rw [if_neg (by simp [hc1])]
  simp only [accumPosU8, h1, h2]
  rw [if_pos (by omega), if_pos (by omega)]
  congr 1
  omega

theorem hex_to_bytes_byte_shape (s : List Nat) (bs : List Nat)
    (h : hex_to_bytes s = some bs) (k : Nat) (hk : k < s.length) :
    isHexDigitByte s[k] = true ∨ (s[k] = 43 ∧ k % 2 = 0) := by
  by_cases he : s.length % 2 = 0
  · unfold hex_to_bytes at h
    rw [if_pos he] at h
    obtain ⟨m, hm⟩ : ∃ m, k = 2 * m ∨ k = 2 * m + 1 := ⟨k / 2, by omega⟩
    have him : 2 * m ∈ hexIndices s.length := by
      simp only [hexIndices, List.mem_map, List.mem_range]
      exact ⟨m, by omega, rfl⟩
    have hne := collectOpt_mem_ne_none _ _ h _
      (List.mem_map_of_mem (fun i => (strGetBytes s i (i + 2)).bind u8FromStrRadix16) him)
    cases hg : strGetBytes s (2 * m) (2 * m + 2) with
    | none => exact absurd (by simp [hg]) hne
    | some sub =>
      have hcond : 2 * m ≤ 2 * m + 2 ∧
          isCharBoundary s (2 * m) = true ∧ isCharBoundary s (2 * m + 2) = true := by
        by_contra hc
        unfold strGetBytes at hg
        rw [if_neg (by simpa using hc)] at hg
        cases hg
      have hlen : 2 * m + 2 ≤ s.length := isCharBoundary_le s (2 * m + 2) hcond.2.2
      have hm1 : 2 * m < s.length := by omega
      have hm2 : 2 * m + 1 < s.length := by omega
      have hsub : sub = [s[2 * m], s[2 * m + 1]] := by
        unfold strGetBytes at hg
        rw [if_pos (by simp [hcond.1, hcond.2.1, hcond.2.2])] at hg
        have : (s.drop (2 * m)).take (2 * m + 2 - 2 * m)
            = [s[2 * m], s[2 * m + 1]] := by
          rw [List.drop_eq_getElem_cons hm1, List.drop_eq_getElem_cons hm2,
            show 2 * m + 2 - 2 * m = 2 by omega]
          rfl
        rw [this] at hg
        exact (Option.some_inj.mp hg).symm
      cases hu : u8FromStrRadix16 sub with
      | none => exact absurd (by simp [hg, hu]) hne
      | some v =>
        rw [hsub] at hu
        have shape := u8_pair_some_shape _ _ _ hu
        rcases hm with rfl | rfl
        · rcases shape.1 with hh | hh
          · exact Or.inr ⟨hh, by omega⟩
          · exact Or.inl hh
        · exact Or.inl shape.2
  · unfold hex_to_bytes at h
    rw [if_neg he] at h
    cases h

theorem isHexDigitByte_lt (b : Nat) (h : isHexDigitByte b = true) : b < 128 := by
  simp only [isHexDigitByte, decide_eq_true_eq] at h
  omega

theorem isCharBoundary_cons2 (b1 b2 : Nat) (rest : List Nat) (i : Nat)
    (hrest : ∀ b ∈ rest, b < 128) :
    isCharBoundary (b1 :: b2 :: rest) (i + 2) = isCharBoundary rest i := by
  unfold isCharBoundary
  rw [if_neg (by omega : ¬(i + 2 = 0))]
  have hdrop : (b1 :: b2 :: rest).drop (i + 2) = rest.drop i := by
    rw [List.drop_succ_cons, List.drop_succ_cons]
  rw [hdrop]
  by_cases hi : i = 0
  · subst hi
    rw [if_pos rfl]
    simp only [List.drop_zero]
    cases rest with
    | nil => simp
    | cons b t =>
      have hb := hrest b (by simp)
      show decide (b < 128 ∨ 192 ≤ b) = true
      simp only [decide_eq_true_eq]
      exact Or.inl hb
  · rw [if_neg hi]
    cases hd : rest.drop i with
    | nil =>
      show decide (i + 2 = (b1 :: b2 :: rest).length) = decide (i = rest.length)
      simp only [List.length_cons]
      rw [decide_eq_decide]
      omega
    | cons b t => rfl

theorem strGetBytes_cons2 (b1 b2 : Nat) (rest : List Nat) (i j : Nat)
    (hrest : ∀ b ∈ rest, b < 128) :
    strGetBytes (b1 :: b2 :: rest) (i + 2) (j + 2) = strGetBytes rest i j := by
  unfold strGetBytes
  rw [isCharBoundary_cons2 b1 b2 rest i hrest, isCharBoundary_cons2 b1 b2 rest j hrest]
  simp only [Nat.add_le_add_iff_right, List.drop_succ_cons,
    show j + 2 - (i + 2) = j - i from by omega]

theorem hexIndices_add_two (n : Nat) :
    hexIndices (n + 2) = 0 :: (hexIndices n).map (fun i => i + 2) := by
  unfold hexIndices
  rw [show n + 2 + 1 = (n + 1) + 2 from by omega,
    show ((n + 1) + 2) / 2 = (n + 1) / 2 + 1 from by omega,
    List.range_succ_eq_map]
  simp only [List.map_cons, List.map_map]
  congr 1

theorem hex_to_bytes_cons2 (b1 b2 : Nat) (rest : List Nat)
    (hrest : ∀ b ∈ rest, b < 128) (heven : rest.length % 2 = 0) :
    hex_to_bytes (b1 :: b2 :: rest) =
      (u8FromStrRadix16 [b1, b2]).bind
        (fun v => (hex_to_bytes rest).map (fun l => v :: l)) := by
  have hb2bound : isCharBoundary (b1 :: b2 :: rest) 2 = true := by
    rw [show (2 : Nat) = 0 + 2 from rfl, isCharBoundary_cons2 b1 b2 rest 0 hrest]
    rfl
  have hget0 : strGetBytes (b1 :: b2 :: rest) 0 2 = some [b1, b2] := by
    unfold strGetBytes
    rw [if_pos ⟨by omega, rfl, hb2bound⟩]
    rfl
  unfold hex_to_bytes
  rw [if_pos (by simp only [List.length_cons]; omega), if_pos heven]
  rw [show (b1 :: b2 :: rest).length = rest.length + 2 from rfl, hexIndices_add_two]
  simp only [List.map_cons, List.map_map]
  have htail : (hexIndices rest.length).map
      ((fun i => (strGetBytes (b1 :: b2 :: rest) i (i + 2)).bind u8FromStrRadix16) ∘
        (fun i => i + 2))
      = (hexIndices rest.length).map
        (fun i => (strGetBytes rest i (i + 2)).bind u8FromStrRadix16) := by
    apply List.map_congr_left
    intro a _
    simp only [Function.comp_apply]
    rw [show a + 2 + 2 = (a + 2) + 2 from rfl, strGetBytes_cons2 b1 b2 rest a (a + 2) hrest]
  rw [htail, hget0]
  cases hu : u8FromStrRadix16 [b1, b2] with
  | none => simp [collectOpt, hu]
  | some v => simp [collectOpt, hu]

theorem hex_roundtrip_aux : ∀ (n : Nat) (s : List Nat), s.length ≤ n →
    (∀ b ∈ s, isHexDigitByte b = true) → s.length % 2 = 0 →
    ∃ bs, hex_to_bytes s = some bs ∧ hashHexRender bs = s.map lowerByte := by
  intro n
  induction n with
  | zero =>
    intro s hlen _ _
    have hs : s = [] := List.eq_nil_of_length_eq_zero (by omega)
    subst hs
    exact ⟨[], by decide, by decide⟩
  | succ n ih =>
    intro s hlen hhex heven
    rcases s with _ | ⟨b1, _ | ⟨b2, rest⟩⟩
    · exact ⟨[], by decide, by decide⟩
    · simp at heven
    · have hb1 : isHexDigitByte b1 = true := hhex b1 (by simp)
      have hb2 : isHexDigitByte b2 = true := hhex b2 (by simp)
      have hrest : ∀ b ∈ rest, b < 128 :=
        fun b hb => isHexDigitByte_lt b (hhex b (by simp [hb]))
      have hreven : rest.length % 2 = 0 := by
        simp only [List.length_cons] at heven
        omega
      rw [hex_to_bytes_cons2 b1 b2 rest hrest hreven]
      obtain ⟨d1, hd1⟩ := hexDigitVal_of_hex b1 hb1
      obtain ⟨d2, hd2⟩ := hexDigitVal_of_hex b2 hb2
      have spec1 := hexDigitVal_spec b1 d1 hd1
      have spec2 := hexDigitVal_spec b2 d2 hd2
      have hc1 : b1 ≠ 43 := by
        simp only [isHexDigitByte, decide_eq_true_eq] at hb1
        omega
      rw [u8_pair_hex_val b1 b2 d1 d2 hd1 hd2 hc1 spec1.2.1 spec2.2.1]
      obtain ⟨bs', hbs', hrender⟩ := ih rest
        (by simp only [List.length_cons] at hlen; omega)
        (fun b hb => hhex b (by simp [hb])) hreven
      refine ⟨(d1 * 16 + d2) :: bs', by simp [hbs'], ?_⟩
      have hdiv : (d1 * 16 + d2) / 16 = d1 := by omega
      have hmod : (d1 * 16 + d2) % 16 = d2 := by omega
      have hhead : byteToHexBytes (d1 * 16 + d2) = [lowerByte b1, lowerByte b2] := by
        unfold byteToHexBytes
        rw [hdiv, hmod, spec1.2.2, spec2.2.2]
      simp only [hashHexRender, List.map_cons, List.flatten_cons, hhead] at hrender ⊢
      rw [hrender]
      simp

/-! ### Claim theorems -/

/-- C2: the attempt engine tries the credential pairs strictly in
credential-set order and, after the first pair whose authentication
succeeds, stops: no transport or authentication attempt is issued for
any later pair.  The first component of `runEngine` is exactly the
ordered list of pairs for which an attempt was issued, and it is always
an in-order prefix of the credential set. -/
theorem attempt_engine_first_success (t : CredentialSet → TransportResult)
    (a : CredentialSet → Bool) (l1 : List CredentialSet) (b : CredentialSet)
    (l2 : List CredentialSet)
    (h1 : ∀ c ∈ l1, t c = TransportResult.ok ∧ a c = false)
    (h2 : t b = TransportResult.ok) (h3 : a b = true) :
    runEngine t a (l1 ++ b :: l2) = (l1 ++ [b], RunResult.success) ∧
    ∀ l : List CredentialSet, ∃ r, (runEngine t a l).1 ++ r = l := by
  refine ⟨?_, runEngine_trace_elem t a⟩
  induction l1 with
  | nil => simp [runEngine, try_combo, h2, h3]
  | cons c cs ih =>
    obtain ⟨htc, hac⟩ := h1 c (by simp)
    have ih' := ih (fun x hx => h1 x (by simp [hx]))
    simp [runEngine, try_combo, htc, hac, ih']

theorem attempt_engine_first_success_witness :
    ((fun _ => TransportResult.ok) (CredentialSet.mk ['A'] (Credential.Password []))
        = TransportResult.ok ∧
      (fun cs => decide (cs.username = ['B'])) (CredentialSet.mk ['A'] (Credential.Password []))
        = false) ∧
    (fun cs => decide (cs.username = ['B'])) (CredentialSet.mk ['B'] (Credential.Password []))
      = true ∧
    runEngine (fun _ => TransportResult.ok) (fun cs => decide (cs.username = ['B']))
        [CredentialSet.mk ['A'] (Credential.Password []),
         CredentialSet.mk ['B'] (Credential.Password []),
         CredentialSet.mk ['C'] (Credential.Password [])]
      = ([CredentialSet.mk ['A'] (Credential.Password []),
          CredentialSet.mk ['B'] (Credential.Password [])], RunResult.success) :=
  ⟨⟨rfl, by decide⟩, by decide,
    (attempt_engine_first_success (fun _ => TransportResult.ok)
      (fun cs => decide (cs.username = ['B']))
      [CredentialSet.mk ['A'] (Credential.Password [])]
      (CredentialSet.mk ['B'] (Credential.Password []))
      [CredentialSet.mk ['C'] (Credential.Password [])]
      (by decide) rfl (by decide)).1⟩

/-- C3: if the constructed credential set is empty (and a username source
was configured, so that `main` reaches the construction at all), the run
aborts with the fatal empty-credential-set panic and issues zero
transport or authentication attempts. -/
theorem empty_credential_set_fatal (u ul wl hl : Option (List Char))
    (t : CredentialSet → TransportResult) (a : CredentialSet → Bool)
    (hu : ¬(u.isNone ∧ ul.isNone))
    (h : combos_with_username_and_wordlists u ul wl hl = some []) :
    mainRun u ul wl hl t a = MainOutcome.emptySetFatal ∧
    attemptsOf (mainRun u ul wl hl t a) = [] := by
  have hu' : u = none → ¬ul = none := by
    intro h1 h2
    exact hu ⟨by simp [h1], by simp [h2]⟩
  have hm : mainRun u ul wl hl t a = MainOutcome.emptySetFatal := by
    simp [mainRun, h]
    exact hu'
  exact ⟨hm, by simp [hm, attemptsOf]⟩

theorem empty_credential_set_fatal_witness :
    ¬((some ['a'] : Option (List Char)).isNone ∧ (none : Option (List Char)).isNone) ∧
    combos_with_username_and_wordlists (some ['a']) none none none = some [] ∧
    mainRun (some ['a']) none none none (fun _ => TransportResult.ok) (fun _ => true)
      = MainOutcome.emptySetFatal :=
  ⟨by decide, by decide,
    (empty_credential_set_fatal (some ['a']) none none none
      (fun _ => TransportResult.ok) (fun _ => true) (by decide) (by decide)).1⟩

/-- C7: a transport-level connection failure is fatal for the whole run:
if the target refuses every connection, the engine aborts with the
transport panic during the first attempt and issues no attempt for any
later pair. -/
theorem transport_refusal_fatal (t : CredentialSet → TransportResult)
    (a : CredentialSet → Bool) (c : CredentialSet) (rest : List CredentialSet)
    (h : ∀ x, t x = TransportResult.refused) :
    runEngine t a (c :: rest) = ([c], RunResult.fatalTransport) := by
  simp [runEngine, try_combo, h c]

theorem transport_refusal_fatal_witness :
    (∀ x : CredentialSet, (fun _ => TransportResult.refused) x = TransportResult.refused) ∧
    runEngine (fun _ => TransportResult.refused) (fun _ => true)
        [CredentialSet.mk ['A'] (Credential.Password []),
         CredentialSet.mk ['B'] (Credential.Password [])]
      = ([CredentialSet.mk ['A'] (Credential.Password [])], RunResult.fatalTransport) :=
  ⟨fun _ => rfl,
    transport_refusal_fatal (fun _ => TransportResult.refused) (fun _ => true)
      (CredentialSet.mk ['A'] (Credential.Password []))
      [CredentialSet.mk ['B'] (Credential.Password [])] (fun _ => rfl)⟩

/-- C8: with neither a password list nor a hash list configured, the
builder returns an empty credential set regardless of the username
configuration, and such a run (with a username source present) aborts
via the empty-credential-set check. -/
theorem no_secret_sources_empty (u ul : Option (List Char))
    (t : CredentialSet → TransportResult) (a : CredentialSet → Bool)
    (hu : ¬(u.isNone ∧ ul.isNone)) :
    combos_with_username_and_wordlists u ul none none = some [] ∧
    mainRun u ul none none t a = MainOutcome.emptySetFatal := by
  have hc : combos_with_username_and_wordlists u ul none none = some [] := by
    cases u with
    | none =>
      cases ul with
      | none => rfl
      | some c => simp [combos_with_username_and_wordlists, flatten_map_nil]
    | some us =>
      cases ul with
      | none => rfl
      | some c => simp [combos_with_username_and_wordlists, flatten_map_nil]
  have hu' : u = none → ¬ul = none := by
    intro h1 h2
    exact hu ⟨by simp [h1], by simp [h2]⟩
  refine ⟨hc, ?_⟩
  simp [mainRun, hc]
  exact hu'

/-- C10: `hex_to_bytes` is total: every input yields either `some`
byte list (of exactly half the input's byte length) or `none`, and the
checked sub-slicing returns `none` (rather than faulting) whenever a
slice boundary is not a char boundary, e.g. falls inside a multi-byte
character. -/
theorem hex_to_bytes_total (s : List Nat) :
    ((∃ bs, hex_to_bytes s = some bs ∧ bs.length = s.length / 2) ∨
      hex_to_bytes s = none) ∧
    (∀ i j, isCharBoundary s j = true ∨ strGetBytes s i j = none) := by
  constructor
  · cases hh : hex_to_bytes s with
    | none => exact Or.inr rfl
    | some bs =>
      refine Or.inl ⟨bs, rfl, ?_⟩
      by_cases he : s.length % 2 = 0
      · unfold hex_to_bytes at hh
        rw [if_pos he] at hh
        have hlen := collectOpt_length _ _ hh
        simp only [List.length_map, hexIndices, List.length_range] at hlen
        omega
      · unfold hex_to_bytes at hh
        rw [if_neg he] at hh
        exact Option.noConfusion hh
  · intro i j
    cases hb : isCharBoundary s j with
    | true => exact Or.inl rfl
    | false =>
      refine Or.inr ?_
      unfold strGetBytes
      rw [if_neg (by simp [hb])]

/-- C4 counterexample: `"+f"` has even length and contains the
non-hex-digit character `+` (byte 43), yet `hex_to_bytes` accepts it and
returns `[0x0f]`, because `u8::from_str_radix` consumes a leading `+` as
a sign. -/
theorem hex_rejects_nonhex_counterexample :
    isHexDigitByte 43 = false ∧ hex_to_bytes [43, 102] = some [15] := by
  decide

/-- C4 amended: hex decoding rejects every odd-length input; it rejects
every input containing a character that is neither a hex digit nor `+`
(byte 43); and it rejects a `+` at an odd (second-of-pair) byte
position.  (A `+` opening a two-byte pair and followed by a hex digit is
accepted as a sign by `u8::from_str_radix`, e.g. `"+f"` decodes to
`[0x0f]`.) -/
theorem hex_rejects_amended (s : List Nat) :
    (s.length % 2 ≠ 0 → hex_to_bytes s = none) ∧
    (∀ b ∈ s, isHexDigitByte b = false → b ≠ 43 → hex_to_bytes s = none) ∧
    (∀ k, (hk : k < s.length) → k % 2 = 1 → s[k] = 43 → hex_to_bytes s = none) := by
  refine ⟨?_, ?_, ?_⟩
  · intro ho
    unfold hex_to_bytes
    rw [if_neg ho]
  · intro b hb hhex h43
    cases hh : hex_to_bytes s with
    | none => rfl
    | some bs =>
      obtain ⟨k, hk, hbk⟩ := List.mem_iff_getElem.mp hb
      rcases hex_to_bytes_byte_shape s bs hh k hk with hx | ⟨hp, _⟩
      · rw [hbk] at hx
        exact absurd hx (by simp [hhex])
      · rw [hbk] at hp
        exact absurd hp h43
  · intro k hk hodd h43
    cases hh : hex_to_bytes s with
    | none => rfl
    | some bs =>
      rcases hex_to_bytes_byte_shape s bs hh k hk with hx | ⟨_, heven⟩
      · rw [h43] at hx
        exact absurd hx (by decide)
      · omega

theorem hex_rejects_amended_witness :
    ([97] : List Nat).length % 2 ≠ 0 ∧ hex_to_bytes [97] = none ∧
    isHexDigitByte 103 = false ∧ (103 : Nat) ≠ 43 ∧ hex_to_bytes [103, 97] = none ∧
    (1 : Nat) % 2 = 1 ∧ hex_to_bytes [102, 43] = none :=
  ⟨by decide, (hex_rejects_amended [97]).1 (by decide), by decide, by decide,
    (hex_rejects_amended [103, 97]).2.1 103 (by decide) (by decide) (by decide),
    by decide,
    (hex_rejects_amended [102, 43]).2.2 1 (by decide) (by decide) (by decide)⟩

/-- C9: hex decoding accepts the empty string, returning an empty byte
sequence, so a hash-list file ending in a newline contributes a trailing
zero-byte `Hash` entry instead of failing at load time. -/
theorem hex_empty_trailing_hash (content : List Char) (hs : List Credential)
    (hh : loadHashCreds content = some hs) :
    hex_to_bytes [] = some [] ∧
    loadHashCreds (content ++ ['\n']) = some (hs ++ [Credential.Hash []]) := by
  refine ⟨by decide, ?_⟩
  unfold loadHashCreds
  rw [splitNewline_append_newline, List.map_append]
  have hlast : ((splitNewline content).map
        (fun v => (hex_to_bytes (utf8Encode (rustToLower (trimList v)))).map
          Credential.Hash)) ++
      (([[]] : List (List Char)).map
        (fun v => (hex_to_bytes (utf8Encode (rustToLower (trimList v)))).map
          Credential.Hash))
      = ((splitNewline content).map
        (fun v => (hex_to_bytes (utf8Encode (rustToLower (trimList v)))).map
          Credential.Hash)) ++ [some (Credential.Hash [])] := by
    rfl
  rw [hlast]
  exact collectOpt_append_one _ _ _ hh

theorem hex_empty_trailing_hash_witness :
    loadHashCreds ['a', 'a'] = some [Credential.Hash [170]] ∧
    loadHashCreds ['a', 'a', '\n'] = some [Credential.Hash [170], Credential.Hash []] :=
  ⟨by decide,
    (hex_empty_trailing_hash ['a', 'a'] [Credential.Hash [170]] (by decide)).2⟩

/-- C5: hex decoding round-trips with the hex rendering: for every
even-length string of hex digits, `hex_to_bytes` succeeds, and
re-encoding the resulting bytes as lowercase two-digit hex (the
`Credential::Hash` `Display` rendering) yields the lowercased input. -/
theorem hex_roundtrip (s : List Nat) (hhex : ∀ b ∈ s, isHexDigitByte b = true)
    (heven : s.length % 2 = 0) :
    ∃ bs, hex_to_bytes s = some bs ∧ hashHexRender bs = s.map lowerByte :=
  hex_roundtrip_aux s.length s le_rfl hhex heven

theorem hex_roundtrip_witness :
    (∀ b ∈ ([97, 66, 51, 102] : List Nat), isHexDigitByte b = true) ∧
    ([97, 66, 51, 102] : List Nat).length % 2 = 0 ∧
    ∃ bs, hex_to_bytes [97, 66, 51, 102] = some bs ∧
      hashHexRender bs = ([97, 66, 51, 102] : List Nat).map lowerByte :=
  ⟨by decide, by decide, hex_roundtrip [97, 66, 51, 102] (by decide) (by decide)⟩

/-- C6: the wordlist loader splits the file content on newline
characters and trims each segment without filtering empty segments: it
produces one entry per newline-separated segment (`count '\n' + 1` of
them), and a file ending in a newline contributes a final empty-password
entry. -/
theorem wordlist_loader_trailing_newline (content : List Char) :
    loadPasswordCreds (content ++ ['\n'])
      = loadPasswordCreds content ++ [Credential.Password []] ∧
    (loadPasswordCreds content).length = content.count '\n' + 1 := by
  constructor
  · simp [loadPasswordCreds, splitNewline_append_newline, trimList]
  · simp [loadPasswordCreds, splitNewline_length]

/-- C1: the credential-set builder's output order.  With hash loading
succeeding, the secrets sequence is the password-list entries followed by
the hash-list entries; with a single username and a username-list both
configured the output is the single-username block (one pair per secret)
followed by the username-major/secret-minor cross product, `S + U*S`
pairs in total; with only a username-list it is exactly the cross
product, `U*S` pairs. -/
theorem credential_set_builder_order (u ulC wlC hlC : List Char)
    (hs : List Credential) (hh : loadHashCreds hlC = some hs) :
    combos_with_username_and_wordlists (some u) (some ulC) (some wlC) (some hlC)
      = some ((loadPasswordCreds wlC ++ hs).map (fun cr => CredentialSet.mk u cr) ++
          ((((splitNewline ulC).map trimList).map
            (fun un => (loadPasswordCreds wlC ++ hs).map
              (fun cr => CredentialSet.mk un cr))).flatten)) ∧
    ((loadPasswordCreds wlC ++ hs).map (fun cr => CredentialSet.mk u cr) ++
        ((((splitNewline ulC).map trimList).map
          (fun un => (loadPasswordCreds wlC ++ hs).map
            (fun cr => CredentialSet.mk un cr))).flatten)).length
      = (loadPasswordCreds wlC ++ hs).length +
          ((splitNewline ulC).map trimList).length * (loadPasswordCreds wlC ++ hs).length ∧
    combos_with_username_and_wordlists none (some ulC) (some wlC) (some hlC)
      = some ((((splitNewline ulC).map trimList).map
          (fun un => (loadPasswordCreds wlC ++ hs).map
            (fun cr => CredentialSet.mk un cr))).flatten) ∧
    ((((splitNewline ulC).map trimList).map
        (fun un => (loadPasswordCreds wlC ++ hs).map
          (fun cr => CredentialSet.mk un cr))).flatten).length
      = ((splitNewline ulC).map trimList).length * (loadPasswordCreds wlC ++ hs).length := by
  refine ⟨?_, ?_, ?_, ?_⟩
  · simp [combos_with_username_and_wordlists, hh]
  · simp only [List.length_append, length_cross, List.length_map]
  · simp [combos_with_username_and_wordlists, hh]
  · exact length_cross _ _

theorem credential_set_builder_order_witness :
    loadHashCreds [] = some [Credential.Hash []] ∧
    combos_with_username_and_wordlists (some ['a']) (some ['u']) (some ['p']) (some [])
      = some [CredentialSet.mk ['a'] (Credential.Password ['p']),
              CredentialSet.mk ['a'] (Credential.Hash []),
              CredentialSet.mk ['u'] (Credential.Password ['p']),
              CredentialSet.mk ['u'] (Credential.Hash [])] :=
  ⟨by decide,
    ((credential_set_builder_order ['a'] ['u'] ['p'] [] [Credential.Hash []]
      (by decide)).1).trans (by decide)⟩

theorem no_secret_sources_empty_witness :
    ¬((none : Option (List Char)).isNone ∧ (some ['u'] : Option (List Char)).isNone) ∧
    combos_with_username_and_wordlists none (some ['u']) none none = some [] ∧
    mainRun none (some ['u']) none none (fun _ => TransportResult.ok) (fun _ => true)
      = MainOutcome.emptySetFatal :=
  ⟨by decide,
    no_secret_sources_empty none (some ['u'])
      (fun _ => TransportResult.ok) (fun _ => true) (by decide)⟩

end RdpBrute
